import Mathlib

/-!
Verification of the `tess-locator` catalog subsystem.

This development gives a shallow embedding of the two source modules
`catalog.py` (the per-sector FFI image-listing catalog) and
`wcs_catalog.py` (the single-file WCS catalog, the sector-date index and
the time-to-sector lookup), and proves properties of the embedded
functions.

Modelling conventions:
* Python strings are embedded as Lean `String`s; Python's lexicographic
  string comparison (by code point) is embedded explicitly as `pyStrLe`
  over the underlying character lists, so that all comparisons compute.
* pandas DataFrames are embedded as lists of rows (structures).
* Fallible code is embedded with `Option`/`Except`; a Python statement
  that raises corresponds to the `none`/`.error` branch.
* The external collaborators (the MAST archive query, the WCS header
  download, the filesystem) are passed in as explicit function
  parameters at the boundary described in the spec.
-/

namespace TessLocator

/-! ### Python string comparison

Python compares strings lexicographically by code point.  `pyStrLe`
embeds `a <= b` on the underlying character lists; `pyLe` is the
comparison on strings.  It is used wherever the source compares
timestamp strings (`time >= row.begin`, pandas `min`/`max`, sorting by
filename). -/

def pyStrLe : List Char → List Char → Bool
  | [], _ => true
  | _ :: _, [] => false
  | a :: as, b :: bs =>
    if a.toNat < b.toNat then true
    else if b.toNat < a.toNat then false
    else pyStrLe as bs

/-- Python `a <= b` on strings: lexicographic comparison by code point. -/
def pyLe (a b : String) : Bool := pyStrLe a.data b.data

/-- Python `min(a, b)` on strings (used by pandas `Series.min`). -/
def pyMin (a b : String) : String := if pyLe a b then a else b

/-- Python `max(a, b)` on strings (used by pandas `Series.max`). -/
def pyMax (a b : String) : String := if pyLe a b then b else a

/-- pandas `Series.min` over a list of strings: `none` on an empty
series, otherwise the fold of `pyMin`. -/
def seriesMin : List String → Option String
  | [] => none
  | x :: xs => some (xs.foldl pyMin x)

/-- pandas `Series.max` over a list of strings. -/
def seriesMax : List String → Option String
  | [] => none
  | x :: xs => some (xs.foldl pyMax x)

/-! ### Data model -/

/-- One row of the per-sector FFI image-listing catalog
(`catalog.py`, `_query_ffi_catalog`): columns
`filename, sector, camera, ccd, start, stop`. -/
structure FfiRow where
  filename : String
  sector : Nat
  camera : Nat
  ccd : Nat
  start : String
  stop : String
deriving DecidableEq

/-- One FFI image as exposed by `imagelist.list_images`: it carries a
filename and the `begin`/`end` timestamps used by
`update_wcs_catalog` (`images[0].begin`, `images[-1].end`). -/
structure TessImage where
  filename : String
  begin : String
  «end» : String
deriving DecidableEq

/-- One row of the WCS catalog (`wcs_catalog.py`): columns
`sector, camera, ccd, begin, end, wcs`. -/
structure WcsRow where
  sector : Nat
  camera : Nat
  ccd : Nat
  begin : String
  «end» : String
  wcs : String
deriving DecidableEq

/-- One row of the derived sector-date index (`get_sector_dates`):
`sector, begin, end`, indexed by sector number. -/
structure SectorDateRow where
  sector : Nat
  begin : String
  «end» : String
deriving DecidableEq

/-- The natural key of a WCS catalog row. -/
def rowKey (r : WcsRow) : Nat × Nat × Nat := (r.sector, r.camera, r.ccd)

/-- Strict lexicographic order on `(camera, ccd)` pairs. -/
def pairLt (p q : Nat × Nat) : Prop :=
  p.1 < q.1 ∨ (p.1 = q.1 ∧ p.2 < q.2)

instance (p q : Nat × Nat) : Decidable (pairLt p q) := by
  unfold pairLt; exact inferInstance

/-- Strict lexicographic order on `(sector, camera, ccd)` keys:
sector first, then camera, then ccd. -/
def keyLt (a b : Nat × Nat × Nat) : Prop :=
  a.1 < b.1 ∨ (a.1 = b.1 ∧ pairLt a.2 b.2)

instance (a b : Nat × Nat × Nat) : Decidable (keyLt a b) := by
  unfold keyLt; exact inferInstance

/-! ### catalog.py: the image-listing catalog -/

/-- Truncation of an ISO timestamp string to second precision:
`.str.slice(stop=19)` in `_query_ffi_catalog` (catalog.py lines
46-47), applied to the ISO rendering of the archive's MJD fields. -/
def isoSecond (s : String) : String := ⟨s.data.take 19⟩

/-- The observable outcome of one `fetch_ffi_catalog` call: the value
returned to the caller, the file writes performed, and whether the
external archive was queried. -/
structure FetchOutcome where
  ret : Option (List FfiRow)
  writes : List (String × List FfiRow)
  queried : Bool
deriving DecidableEq

/-- Embedding of `fetch_ffi_catalog` (catalog.py lines 57-66): if the
target path exists the call logs, performs no write, does not query
the archive, and returns `None`; otherwise it queries the archive via
`_query_ffi_catalog` (parameter `query`) and writes the result to
`path`. -/
def fetch_ffi_catalog (query : Nat → List FfiRow) (fsExists : String → Bool)
    (sector : Nat) (path : String) : FetchOutcome :=
  if fsExists path then { ret := none, writes := [], queried := false }
  else
    let df := query sector
    { ret := some df, writes := [(path, df)], queried := true }

/-- Replay of a list of file writes on a filesystem (path to contents
map); used to state that a call leaves the filesystem unchanged. -/
def applyWrites (fs : String → Option (List FfiRow)) :
    List (String × List FfiRow) → (String → Option (List FfiRow))
  | [] => fs
  | (p, d) :: rest => applyWrites (fun q => if q = p then some d else fs q) rest

/-- Embedding of the loop body of `fetch_all_catalogs` (catalog.py
lines 69-73) over an explicit list of sectors.  Each per-sector fetch
is modelled as `fetch : Nat → Except ε Unit`; the Python loop has no
exception handler, so an exception raised by one iteration propagates
and ends the loop.  The result records the sectors whose fetch was
attempted (in order) and the propagated exception, if any. -/
def fetch_all_catalogs_loop (fetch : Nat → Except ε Unit) :
    List Nat → List Nat × Option ε
  | [] => ([], none)
  | s :: rest =>
    match fetch s with
    | .error e => ([s], some e)
    | .ok _ =>
      let r := fetch_all_catalogs_loop fetch rest
      (s :: r.1, r.2)

/-- Embedding of `fetch_all_catalogs`: iterates over
`range(1, SECTORS + 1)`. -/
def fetch_all_catalogs (fetch : Nat → Except ε Unit) (SECTORS : Nat) :
    List Nat × Option ε :=
  fetch_all_catalogs_loop fetch (List.range' 1 SECTORS)

/-! ### imagelist boundary -/

/-- Ordering of images by filename (Python string comparison). -/
def imgLe (a b : TessImage) : Prop := pyLe a.filename b.filename = true

instance (a b : TessImage) : Decidable (imgLe a b) := by
  unfold imgLe; exact inferInstance

/-- Modelled from the spec: `imagelist.list_images(sector, camera, ccd)`
is code of this repository that is not under `src/` (only its caller
`update_wcs_catalog` is).  Per spec sections 4.1-4.2, the listing of a
`(sector, camera, ccd)` triple comes from the Image-Listing Catalog,
whose rows are sorted ascending by `filename` (the sort in
`_query_ffi_catalog`, catalog.py line 48); each image exposes the
listing row's temporal bounds as `begin`/`end`. -/
def list_images (catalog : List FfiRow) (sector camera ccd : Nat) : List TessImage :=
  List.insertionSort imgLe
    ((catalog.filter fun r =>
        r.sector == sector && r.camera == camera && r.ccd == ccd).map
      fun r => ⟨r.filename, r.start, r.stop⟩)

/-! ### wcs_catalog.py: building the WCS catalog -/

/-- The fixed camera list `[1, 2, 3, 4]` of `update_wcs_catalog`. -/
def cameras : List Nat := [1, 2, 3, 4]

/-- The fixed ccd list `[1, 2, 3, 4]` of `update_wcs_catalog`. -/
def ccds : List Nat := [1, 2, 3, 4]

/-- Assembly of one WCS catalog row for a `(sector, camera, ccd)`
triple (wcs_catalog.py lines 40-50): the WCS header is downloaded for
the image at index `len(images) // 2`, `begin` is `images[0].begin`
and `end` is `images[-1].end`.  All three lookups succeed exactly when
the listing is nonempty; on an empty listing the Python code raises
`IndexError`, embedded as `none`. -/
def assemble_row (listImages : Nat → Nat → Nat → List TessImage)
    (downloadWcs : TessImage → String) (sector camera ccd : Nat) : Option WcsRow :=
  match (listImages sector camera ccd).get?
          ((listImages sector camera ccd).length / 2),
        (listImages sector camera ccd).head?,
        (listImages sector camera ccd).getLast? with
  | some mid, some first, some last =>
    some { sector := sector, camera := camera, ccd := ccd,
           begin := first.begin, «end» := last.«end», wcs := downloadWcs mid }
  | _, _, _ => none

/-- The `for sector, camera, ccd in ...` loop of `update_wcs_catalog`:
appends one row per triple, in iteration order; a failure while
assembling one row aborts the whole build (nothing is written). -/
def assemble_rows (listImages : Nat → Nat → Nat → List TessImage)
    (downloadWcs : TessImage → String) :
    List (Nat × Nat × Nat) → Option (List WcsRow)
  | [] => some []
  | (s, c, d) :: rest =>
    match assemble_row listImages downloadWcs s c d with
    | none => none
    | some row =>
      match assemble_rows listImages downloadWcs rest with
      | none => none
      | some rows => some (row :: rows)

/-- Embedding of `update_wcs_catalog` (wcs_catalog.py lines 27-52):
iterates `itertools.product(sectors, [1, 2, 3, 4], [1, 2, 3, 4])` (the
caller-supplied sector order, then cameras ascending, then ccds
ascending) and assembles one row per triple.  Returns the assembled
row list, or `none` if any triple's assembly fails. -/
def update_wcs_catalog (listImages : Nat → Nat → Nat → List TessImage)
    (downloadWcs : TessImage → String) (sectors : List Nat) : Option (List WcsRow) :=
  assemble_rows listImages downloadWcs (sectors ×ˢ (cameras ×ˢ ccds))

/-- The persisted WCS table after an `update_wcs_catalog` invocation:
`df.to_parquet(WCS_CATALOG)` (wcs_catalog.py line 52) overwrites the
single catalog file with exactly the assembled rows; if the build
raises before that line, nothing is written and the old table
remains. -/
def store_after_update (old : List WcsRow)
    (listImages : Nat → Nat → Nat → List TessImage)
    (downloadWcs : TessImage → String) (sectors : List Nat) : List WcsRow :=
  match update_wcs_catalog listImages downloadWcs sectors with
  | some rows => rows
  | none => old

/-! ### wcs_catalog.py: queries -/

/-- The error surfaced by `get_wcs` when no row matches the key: the
`.iloc[0]` lookup on the empty selection raises. -/
inductive WcsError
  | notFound
deriving DecidableEq

/-- Embedding of `get_wcs` (wcs_catalog.py lines 62-75): selects the
rows matching `sector == .. & camera == .. & ccd == ..` from the
loaded catalog and takes the first one's `wcs` string (`.iloc[0].wcs`);
on an empty selection the lookup raises, embedded as
`.error .notFound`.  The deserialization of the header string and the
memoization are outside the lookup semantics. -/
def get_wcs (db : List WcsRow) (sector camera ccd : Nat) : Except WcsError String :=
  match db.filter (fun r => r.sector == sector && r.camera == camera && r.ccd == ccd) with
  | [] => .error .notFound
  | r :: _ => .ok r.wcs

/-- The distinct sector values of the catalog in ascending order:
pandas `groupby("sector")` groups by the distinct keys and sorts them
ascending. -/
def sector_groups (db : List WcsRow) : List Nat :=
  List.insertionSort (fun a b => a ≤ b) (db.map (fun r => r.sector)).dedup

/-- The aggregated row of one sector group:
`begin = min(begin), end = max(end)` over that sector's catalog rows
(wcs_catalog.py lines 82-83).  `none` never occurs for a sector that is
present in the catalog (its group is nonempty). -/
def sector_date_row (db : List WcsRow) (s : Nat) : Option SectorDateRow :=
  match seriesMin ((db.filter fun r => r.sector == s).map fun r => r.begin),
        seriesMax ((db.filter fun r => r.sector == s).map fun r => r.«end») with
  | some b, some e => some ⟨s, b, e⟩
  | _, _ => none

/-- Embedding of `get_sector_dates` (wcs_catalog.py lines 78-84): one
aggregated row per distinct sector of the catalog, indexed by sector
number in ascending order. -/
def get_sector_dates (db : List WcsRow) : List SectorDateRow :=
  (sector_groups db).filterMap (sector_date_row db)

/-- An `astropy.time.Time` value as seen by this module: the external
object is opaque except for its `.iso` rendering, which is the string
`time_to_sector` substitutes for it.  (astropy's default rendering
carries millisecond precision, e.g. `2018-08-22 00:00:00.000`.) -/
structure AstroTime where
  iso : String
deriving DecidableEq

/-- The argument of `time_to_sector`: `Union[str, Time]`. -/
inductive TimeArg
  | str (s : String)
  | time (t : AstroTime)
deriving DecidableEq

/-- The input normalization of `time_to_sector` (wcs_catalog.py lines
90-91): a `Time` object is replaced by its `.iso` rendering; a string
is used as-is. -/
def normalize_time : TimeArg → String
  | .str s => s
  | .time t => t.iso

/-- The scan loop of `time_to_sector` (wcs_catalog.py lines 93-98):
walks the sector-date index rows in order and returns the sector of
the first row with `time >= row.begin and time <= row.end` (Python
string comparisons), else `None`. -/
def scan_sector_dates (dates : List SectorDateRow) (time : String) : Option Nat :=
  match dates with
  | [] => none
  | row :: rest =>
    if pyLe row.begin time && pyLe time row.«end» then some row.sector
    else scan_sector_dates rest time

/-- Embedding of `time_to_sector` (wcs_catalog.py lines 87-98) over an
explicit sector-date index (the source obtains it from
`get_sector_dates()`). -/
def time_to_sector (dates : List SectorDateRow) (time : TimeArg) : Option Nat :=
  scan_sector_dates dates (normalize_time time)

/-! ### Concrete inputs used by witnesses and counterexamples -/

/-- The sector-date index of the spec's worked example. -/
def exampleIndex : List SectorDateRow :=
  [⟨1, "2018-07-25 00:00:00", "2018-08-22 00:00:00"⟩,
   ⟨2, "2018-08-22 00:00:01", "2018-09-20 00:00:00"⟩]

/-- An astropy `Time` at its default rendering precision (milliseconds),
denoting the instant `2018-08-22 00:00:00`. -/
def exampleAstroTime : AstroTime := ⟨"2018-08-22 00:00:00.000"⟩

/-- A one-image listing for every triple, for exercising the build. -/
def oneImage : Nat → Nat → Nat → List TessImage :=
  fun _ _ _ => [⟨"f", "2018-07-25 00:00:00", "2018-08-22 00:00:00"⟩]

/-- A constant header download, for exercising the build. -/
def constWcs : TessImage → String := fun _ => "WCSAXES =  2"

/-- A per-sector fetch that raises on sector 1 and succeeds elsewhere. -/
def failFetch : Nat → Except Unit Unit :=
  fun s => if s = 1 then .error () else .ok ()

/-- A per-sector fetch that raises on sector 2 and succeeds elsewhere. -/
def failFetch2 : Nat → Except Unit Unit :=
  fun s => if s = 2 then .error () else .ok ()

/-- A catalog holding one row whose key is `(1, 1, 2)`. -/
def db2 : List WcsRow :=
  [⟨1, 1, 2, "2018-07-25 00:00:00", "2018-08-22 00:00:00", "WCSAXES =  2"⟩]

/-- A catalog with two rows for sector 1, with distinct bounds. -/
def db9 : List WcsRow :=
  [⟨1, 1, 1, "2018-07-25 00:00:10", "2018-08-22 00:00:00", "w1"⟩,
   ⟨1, 1, 2, "2018-07-25 00:00:00", "2018-08-22 00:00:05", "w2"⟩]

/-- A catalog holding one pre-existing row for sector 5. -/
def oldStore : List WcsRow :=
  [⟨5, 1, 1, "2019-01-01 00:00:00", "2019-02-01 00:00:00", "w5"⟩]

/-- An image-listing catalog for triple `(1, 1, 1)` whose two rows are
out of filename order. -/
def cat10 : List FfiRow :=
  [⟨"tess2018234235959-s0001-1-1-0120-s_ffic.fits", 1, 1, 1,
    "2018-08-22 23:56:03", "2018-08-23 00:26:03"⟩,
   ⟨"tess2018206192942-s0001-1-1-0120-s_ffic.fits", 1, 1, 1,
    "2018-07-25 19:26:03", "2018-07-25 19:56:03"⟩]

/-! ### Helper lemmas on the string comparison -/

/-- Unfolding of `pyStrLe` on two nonempty lists. -/
theorem pyStrLe_cons (a b : Char) (as bs : List Char) :
    pyStrLe (a :: as) (b :: bs) = true ↔
      a.toNat < b.toNat ∨ (a.toNat = b.toNat ∧ pyStrLe as bs = true) := by
  have hd : pyStrLe (a :: as) (b :: bs) =
      (if a.toNat < b.toNat then true
       else if b.toNat < a.toNat then false else pyStrLe as bs) := rfl
  rw [hd]
  by_cases h1 : a.toNat < b.toNat
  · rw [if_pos h1]
    exact ⟨fun _ => Or.inl h1, fun _ => rfl⟩
  · rw [if_neg h1]
    by_cases h2 : b.toNat < a.toNat
    · rw [if_pos h2]
      constructor
      · intro h; exact Bool.noConfusion h
      · rintro (h | ⟨h, _⟩) <;> omega
    · rw [if_neg h2]
      have he : a.toNat = b.toNat := by omega
      constructor
      · intro h; exact Or.inr ⟨he, h⟩
      · rintro (h | ⟨_, h⟩)
        · omega
        · exact h

/-- Transitivity of the embedded Python string comparison. -/
theorem pyStrLe_trans : ∀ (a b c : List Char),
    pyStrLe a b = true → pyStrLe b c = true → pyStrLe a c = true
  | [], _, _, _, _ => rfl
  | _ :: _, [], _, hab, _ => by simp [pyStrLe] at hab
  | _ :: _, _ :: _, [], _, hbc => by simp [pyStrLe] at hbc
  | a :: as, b :: bs, c :: cs, hab, hbc => by
    rw [pyStrLe_cons] at hab hbc ⊢
    rcases hab with h1 | ⟨h1, h1'⟩ <;> rcases hbc with h2 | ⟨h2, h2'⟩
    · exact Or.inl (by omega)
    · exact Or.inl (by omega)
    · exact Or.inl (by omega)
    · exact Or.inr ⟨by omega, pyStrLe_trans as bs cs h1' h2'⟩

/-- Totality of the embedded Python string comparison. -/
theorem pyStrLe_total : ∀ (a b : List Char),
    (pyStrLe a b || pyStrLe b a) = true
  | [], _ => by simp [pyStrLe]
  | _ :: _, [] => by simp [pyStrLe]
  | a :: as, b :: bs => by
    rw [Bool.or_eq_true, pyStrLe_cons, pyStrLe_cons]
    rcases Nat.lt_trichotomy a.toNat b.toNat with h | h | h
    · exact Or.inl (Or.inl h)
    · have ih := pyStrLe_total as bs
      rw [Bool.or_eq_true] at ih
      rcases ih with ih | ih
      · exact Or.inl (Or.inr ⟨h, ih⟩)
      · exact Or.inr (Or.inr ⟨h.symm, ih⟩)
    · exact Or.inr (Or.inl h)

/-! ### Helper lemmas on the catalog build -/

/-- A successfully assembled row carries the key of its triple. -/
theorem assemble_row_key (listImages : Nat → Nat → Nat → List TessImage)
    (downloadWcs : TessImage → String) (s c d : Nat) (row : WcsRow)
    (h : assemble_row listImages downloadWcs s c d = some row) :
    rowKey row = (s, c, d) := by
  unfold assemble_row at h
  split at h
  · injection h with h2
    subst h2
    rfl
  · exact Option.noConfusion h

/-- The key sequence of a successful build is exactly the triple
sequence it was built from. -/
theorem assemble_rows_keys (listImages : Nat → Nat → Nat → List TessImage)
    (downloadWcs : TessImage → String) :
    ∀ (ts : List (Nat × Nat × Nat)) (rows : List WcsRow),
      assemble_rows listImages downloadWcs ts = some rows →
      rows.map rowKey = ts := by
  intro ts
  induction ts with
  | nil =>
    intro rows h
    simp only [assemble_rows] at h
    injection h with h
    subst h
    rfl
  | cons t rest ih =>
    intro rows h
    obtain ⟨s, c, d⟩ := t
    unfold assemble_rows at h
    cases hrow : assemble_row listImages downloadWcs s c d with
    | none => rw [hrow] at h; exact Option.noConfusion h
    | some row =>
      rw [hrow] at h
      cases hrest : assemble_rows listImages downloadWcs rest with
      | none => rw [hrest] at h; exact Option.noConfusion h
      | some rows' =>
        rw [hrest] at h
        injection h with h
        subst h
        simp only [List.map_cons]
        rw [assemble_row_key listImages downloadWcs s c d row hrow, ih rows' hrest]

/-- Key sequence of a successful `update_wcs_catalog` invocation. -/
theorem update_wcs_catalog_keys (listImages : Nat → Nat → Nat → List TessImage)
    (downloadWcs : TessImage → String) (sectors : List Nat) (rows : List WcsRow)
    (h : update_wcs_catalog listImages downloadWcs sectors = some rows) :
    rows.map rowKey = sectors ×ˢ (cameras ×ˢ ccds) :=
  assemble_rows_keys listImages downloadWcs _ rows h

/-! ### C1: first-match semantics of the time-to-sector lookup -/

/-- C1: `time_to_sector` scans the sector-date index rows in index
order and returns the sector number of the first row whose
`[begin, end]` interval contains the timestamp, with both endpoints
inclusive; if no row's interval contains it, it returns the not-found
sentinel `none` rather than raising.  On the spec's example index,
`"2018-08-01 00:00:00"` resolves to sector `1` and
`"2017-01-01 00:00:00"` to `none`. -/
theorem time_to_sector_first_match :
    (∀ (dates : List SectorDateRow) (t : String),
        scan_sector_dates dates t =
          (dates.find? fun row => pyLe row.begin t && pyLe t row.«end»).map
            (fun row => row.sector)) ∧
    time_to_sector exampleIndex (.str "2018-08-01 00:00:00") = some 1 ∧
    time_to_sector exampleIndex (.str "2017-01-01 00:00:00") = none := by
  refine ⟨?_, by decide, by decide⟩
  intro dates t
  induction dates with
  | nil => rfl
  | cons row rest ih =>
    by_cases h : (pyLe row.begin t && pyLe t row.«end») = true
    · simp [scan_sector_dates, List.find?_cons, h]
    · simp [scan_sector_dates, List.find?_cons, h, ih]

/-! ### C2: missing WCS keys surface an error -/

/-- C2: for every `(sector, camera, ccd)` key with no matching row in
the loaded WCS catalog, `get_wcs` fails with the distinct not-found
error surfaced to the caller, rather than silently returning a
default value. -/
theorem get_wcs_not_found (db : List WcsRow) (sector camera ccd : Nat)
    (h : ∀ r ∈ db, ¬(r.sector = sector ∧ r.camera = camera ∧ r.ccd = ccd)) :
    get_wcs db sector camera ccd = .error .notFound := by
  unfold get_wcs
  have hf : db.filter
      (fun r => r.sector == sector && r.camera == camera && r.ccd == ccd) = [] := by
    rw [List.filter_eq_nil_iff]
    intro r hr
    have hr2 := h r hr
    simp only [Bool.and_eq_true, beq_iff_eq]
    intro hc
    exact hr2 ⟨hc.1.1, hc.1.2, hc.2⟩
  rw [hf]

/-- Witness for C2 at a concrete catalog and key `(1, 1, 1)`. -/
theorem get_wcs_not_found_witness :
    get_wcs db2 1 1 1 = .error .notFound :=
  get_wcs_not_found db2 1 1 1 (by decide)

/-! ### C3: a failing sector fetch ends the bulk-fetch loop -/

/-- C3 counterexample: with a fetch that raises on sector 1 and would
succeed on sector 2, running the loop over sectors 1..2 attempts only
sector 1 — the failure prevents the fetch of the subsequent sector,
contrary to the claim. -/
theorem fetch_all_catalogs_counterexample :
    fetch_all_catalogs failFetch 2 = ([1], some ()) ∧
    2 ∉ (fetch_all_catalogs failFetch 2).1 ∧
    failFetch 2 = .ok () := by
  refine ⟨rfl, ?_, rfl⟩
  decide

/-- C3 amended: `fetch_all_catalogs` has no exception handler, so a
failure raised while fetching one sector propagates and ends the
loop: the sectors attempted are exactly those up to and including the
first failing one, and no later sector's fetch is attempted. -/
theorem fetch_all_catalogs_aborts {ε : Type} (fetch : Nat → Except ε Unit)
    (SECTORS : Nat) (pre : List Nat) (s : Nat) (post : List Nat) (e : ε)
    (hsplit : List.range' 1 SECTORS = pre ++ s :: post)
    (hpre : ∀ x ∈ pre, fetch x = .ok ())
    (hs : fetch s = .error e) :
    fetch_all_catalogs fetch SECTORS = (pre ++ [s], some e) := by
  unfold fetch_all_catalogs
  rw [hsplit]
  clear hsplit
  induction pre with
  | nil =>
    simp only [List.nil_append]
    unfold fetch_all_catalogs_loop
    rw [hs]
  | cons a pre ih =>
    simp only [List.cons_append]
    have hfa : fetch a = .ok () := hpre a (List.mem_cons_self a pre)
    unfold fetch_all_catalogs_loop
    rw [hfa]
    dsimp only
    rw [ih (fun x hx => hpre x (List.mem_cons_of_mem a hx))]

/-- Witness for the amended C3: with a fetch failing on sector 2, the
loop over sectors 1..3 attempts exactly sectors 1 and 2. -/
theorem fetch_all_catalogs_aborts_witness :
    fetch_all_catalogs failFetch2 3 = ([1] ++ [2], some ()) :=
  fetch_all_catalogs_aborts failFetch2 3 [1] 2 [3] () rfl
    (fun x hx => by
      have hx1 : x = 1 := by simpa using hx
      subst hx1
      rfl)
    rfl

/-! ### C8: an existing listing file makes the fetch a no-op -/

/-- C8: when the per-sector listing file already exists,
`fetch_ffi_catalog` returns the skip sentinel `none`, performs no
write (replaying its writes leaves any filesystem byte-identical),
and does not query the external archive. -/
theorem fetch_ffi_catalog_skip (query : Nat → List FfiRow) (fsExists : String → Bool)
    (sector : Nat) (path : String) (h : fsExists path = true) :
    fetch_ffi_catalog query fsExists sector path =
      { ret := none, writes := [], queried := false } ∧
    ∀ fs : String → Option (List FfiRow),
      applyWrites fs (fetch_ffi_catalog query fsExists sector path).writes = fs := by
  have hq : fetch_ffi_catalog query fsExists sector path =
      { ret := none, writes := [], queried := false } := by
    unfold fetch_ffi_catalog
    rw [if_pos h]
  exact ⟨hq, fun fs => by rw [hq]; rfl⟩

/-- Witness for C8 at a concrete query, filesystem, sector and path. -/
theorem fetch_ffi_catalog_skip_witness :
    fetch_ffi_catalog (fun _ => []) (fun _ => true) 1
      "tess-s0001-ffi-catalog.parquet" =
      { ret := none, writes := [], queried := false } ∧
    ∀ fs : String → Option (List FfiRow),
      applyWrites fs
        ((fetch_ffi_catalog (fun _ => []) (fun _ => true) 1
          "tess-s0001-ffi-catalog.parquet").writes) = fs :=
  fetch_ffi_catalog_skip (fun _ => []) (fun _ => true) 1
    "tess-s0001-ffi-catalog.parquet" rfl

/-! ### C4: one row per (sector, camera, ccd) triple -/

/-- C4: for every duplicate-free list of requested sectors, a
successful `update_wcs_catalog` invocation assembles exactly one row
per element of the Cartesian product of the sectors with
`cameras × ccds` — that is, `|S| * 16` rows whose
`(sector, camera, ccd)` keys are pairwise distinct. -/
theorem update_wcs_catalog_row_count (listImages : Nat → Nat → Nat → List TessImage)
    (downloadWcs : TessImage → String) (sectors : List Nat) (rows : List WcsRow)
    (hnd : sectors.Nodup)
    (h : update_wcs_catalog listImages downloadWcs sectors = some rows) :
    rows.map rowKey = sectors ×ˢ (cameras ×ˢ ccds) ∧
    rows.length = sectors.length * 16 ∧
    (rows.map rowKey).Nodup := by
  have hk := update_wcs_catalog_keys listImages downloadWcs sectors rows h
  refine ⟨hk, ?_, ?_⟩
  · calc rows.length = (rows.map rowKey).length := (List.length_map _ _).symm
    _ = (sectors ×ˢ (cameras ×ˢ ccds)).length := by rw [hk]
    _ = sectors.length * 16 := by
        rw [List.length_product, List.length_product]
        rfl
  · rw [hk]
    exact hnd.product (by decide)

/-- Witness for C4: over sectors `[1, 2]` the build yields exactly
`2 * 16 = 32` rows with pairwise-distinct keys. -/
theorem update_wcs_catalog_row_count_witness :
    ∃ rows, update_wcs_catalog oneImage constWcs [1, 2] = some rows ∧
      (rows.map rowKey = [1, 2] ×ˢ (cameras ×ˢ ccds) ∧
       rows.length = 2 * 16 ∧
       (rows.map rowKey).Nodup) := by
  obtain ⟨rows, hrows⟩ :
      ∃ rows, update_wcs_catalog oneImage constWcs [1, 2] = some rows := ⟨_, rfl⟩
  exact ⟨rows, hrows,
    update_wcs_catalog_row_count oneImage constWcs [1, 2] rows (by decide) hrows⟩

/-! ### C6: assembly order of the build -/

/-- C6 counterexample: the build iterates the caller-supplied sector
sequence as given.  With sector list `[2, 1]` the build succeeds but
the assembled key sequence is not ascending (sector 2's rows precede
sector 1's), contradicting the claim that rows are assembled in
ascending sector order for every caller-supplied input. -/
theorem update_wcs_catalog_order_counterexample :
    (update_wcs_catalog oneImage constWcs [2, 1]).isSome = true ∧
    ¬ List.Pairwise keyLt
        (((update_wcs_catalog oneImage constWcs [2, 1]).getD []).map rowKey) := by
  constructor
  · rfl
  · decide

/-- C6 amended: rows are assembled deterministically in the order the
caller supplies the sectors, with camera then ccd ascending within
each sector; whenever the supplied sector list is strictly ascending
(as the default `range(1, SECTORS + 1)` is), the full key sequence is
strictly ascending in the lexicographic (sector, camera, ccd) order. -/
theorem update_wcs_catalog_order (listImages : Nat → Nat → Nat → List TessImage)
    (downloadWcs : TessImage → String) (sectors : List Nat) (rows : List WcsRow)
    (hs : List.Pairwise (· < ·) sectors)
    (h : update_wcs_catalog listImages downloadWcs sectors = some rows) :
    rows.map rowKey = sectors ×ˢ (cameras ×ˢ ccds) ∧
    List.Pairwise keyLt (rows.map rowKey) := by
  have hk := update_wcs_catalog_keys listImages downloadWcs sectors rows h
  refine ⟨hk, ?_⟩
  rw [hk]
  have hprod : sectors ×ˢ (cameras ×ˢ ccds) =
      sectors.flatMap (fun s => (cameras ×ˢ ccds).map (fun p => (s, p))) := rfl
  rw [hprod, List.pairwise_flatMap]
  constructor
  · intro a _
    rw [List.pairwise_map]
    have hp : List.Pairwise pairLt (cameras ×ˢ ccds) := by decide
    exact hp.imp (fun hpq => Or.inr ⟨rfl, hpq⟩)
  · refine hs.imp (fun hab => ?_)
    intro x hx y hy
    rw [List.mem_map] at hx hy
    obtain ⟨p, _, hpx⟩ := hx
    obtain ⟨q, _, hqy⟩ := hy
    subst hpx
    subst hqy
    exact Or.inl hab

/-- Witness for the amended C6 with the ascending sector list `[1, 2]`. -/
theorem update_wcs_catalog_order_witness :
    ∃ rows, update_wcs_catalog oneImage constWcs [1, 2] = some rows ∧
      (rows.map rowKey = [1, 2] ×ˢ (cameras ×ˢ ccds) ∧
       List.Pairwise keyLt (rows.map rowKey)) := by
  obtain ⟨rows, hrows⟩ :
      ∃ rows, update_wcs_catalog oneImage constWcs [1, 2] = some rows := ⟨_, rfl⟩
  exact ⟨rows, hrows,
    update_wcs_catalog_order oneImage constWcs [1, 2] rows (by decide) hrows⟩

/-! ### C7: the build is a full replacement of the persisted table -/

/-- C7: a successful `update_wcs_catalog` run writes the assembled
rows as a single full replacement of the persisted WCS table: the
store afterwards is exactly the new row list, every stored row's
sector is one of the requested sectors, and pre-existing rows for
sectors outside the request are discarded with the rest of the old
table. -/
theorem update_wcs_catalog_full_replace (old : List WcsRow)
    (listImages : Nat → Nat → Nat → List TessImage)
    (downloadWcs : TessImage → String) (sectors : List Nat) (rows : List WcsRow)
    (h : update_wcs_catalog listImages downloadWcs sectors = some rows) :
    store_after_update old listImages downloadWcs sectors = rows ∧
    ∀ r ∈ store_after_update old listImages downloadWcs sectors,
      r.sector ∈ sectors := by
  have hst : store_after_update old listImages downloadWcs sectors = rows := by
    unfold store_after_update
    rw [h]
  refine ⟨hst, ?_⟩
  rw [hst]
  intro r hr
  have hk := update_wcs_catalog_keys listImages downloadWcs sectors rows h
  have hmem : (r.sector, (r.camera, r.ccd)) ∈ sectors ×ˢ (cameras ×ˢ ccds) := by
    rw [← hk]
    exact List.mem_map_of_mem rowKey hr
  exact (List.mem_product.mp hmem).1

/-- Witness for C7: rebuilding over sectors `[1]` on top of a store
holding a sector-5 row leaves a store whose rows all belong to
sector 1. -/
theorem update_wcs_catalog_full_replace_witness :
    ∃ rows, update_wcs_catalog oneImage constWcs [1] = some rows ∧
      (store_after_update oldStore oneImage constWcs [1] = rows ∧
       ∀ r ∈ store_after_update oldStore oneImage constWcs [1],
         r.sector ∈ [1]) := by
  obtain ⟨rows, hrows⟩ :
      ∃ rows, update_wcs_catalog oneImage constWcs [1] = some rows := ⟨_, rfl⟩
  exact ⟨rows, hrows,
    update_wcs_catalog_full_replace oldStore oneImage constWcs [1] rows hrows⟩

/-! ### Order facts about the string comparison and pandas min/max -/

/-- Reflexivity of the embedded Python string comparison. -/
theorem pyStrLe_refl : ∀ a : List Char, pyStrLe a a = true
  | [] => rfl
  | a :: as => by
    rw [pyStrLe_cons]
    exact Or.inr ⟨rfl, pyStrLe_refl as⟩

/-- Reflexivity of `pyLe`. -/
theorem pyLe_refl (a : String) : pyLe a a = true := pyStrLe_refl a.data

/-- Totality of `pyLe`. -/
theorem pyLe_total (a b : String) : pyLe a b = true ∨ pyLe b a = true := by
  have h := pyStrLe_total a.data b.data
  rw [Bool.or_eq_true] at h
  exact h

/-- Transitivity of `pyLe`. -/
theorem pyLe_trans {a b c : String} (h1 : pyLe a b = true)
    (h2 : pyLe b c = true) : pyLe a c = true :=
  pyStrLe_trans a.data b.data c.data h1 h2

/-- `pyMin a b` is below its left argument. -/
theorem pyMin_le_left (a b : String) : pyLe (pyMin a b) a = true := by
  unfold pyMin
  by_cases h : pyLe a b = true
  · rw [if_pos h]; exact pyLe_refl a
  · rw [if_neg h]
    rcases pyLe_total a b with h' | h'
    · exact absurd h' h
    · exact h'

/-- `pyMin a b` is below its right argument. -/
theorem pyMin_le_right (a b : String) : pyLe (pyMin a b) b = true := by
  unfold pyMin
  by_cases h : pyLe a b = true
  · rw [if_pos h]; exact h
  · rw [if_neg h]; exact pyLe_refl b

/-- `pyMin` returns one of its arguments. -/
theorem pyMin_eq_or (a b : String) : pyMin a b = a ∨ pyMin a b = b := by
  unfold pyMin
  split
  · exact Or.inl rfl
  · exact Or.inr rfl

/-- `pyMax a b` is above its left argument. -/
theorem pyMax_ge_left (a b : String) : pyLe a (pyMax a b) = true := by
  unfold pyMax
  by_cases h : pyLe a b = true
  · rw [if_pos h]; exact h
  · rw [if_neg h]; exact pyLe_refl a

/-- `pyMax a b` is above its right argument. -/
theorem pyMax_ge_right (a b : String) : pyLe b (pyMax a b) = true := by
  unfold pyMax
  by_cases h : pyLe a b = true
  · rw [if_pos h]; exact pyLe_refl b
  · rw [if_neg h]
    rcases pyLe_total a b with h' | h'
    · exact absurd h' h
    · exact h'

/-- `pyMax` returns one of its arguments. -/
theorem pyMax_eq_or (a b : String) : pyMax a b = a ∨ pyMax a b = b := by
  unfold pyMax
  split
  · exact Or.inr rfl
  · exact Or.inl rfl

/-- The `pyMin` fold is a lower bound of the accumulator and the list. -/
theorem foldl_pyMin_le : ∀ (l : List String) (acc : String),
    pyLe (l.foldl pyMin acc) acc = true ∧
      ∀ x ∈ l, pyLe (l.foldl pyMin acc) x = true
  | [], acc => ⟨pyLe_refl acc, fun x hx => absurd hx (List.not_mem_nil x)⟩
  | y :: l, acc => by
    have ih := foldl_pyMin_le l (pyMin acc y)
    refine ⟨pyLe_trans ih.1 (pyMin_le_left acc y), ?_⟩
    intro x hx
    rcases List.mem_cons.mp hx with hxy | hxl
    · subst hxy
      exact pyLe_trans ih.1 (pyMin_le_right acc x)
    · exact ih.2 x hxl

/-- The `pyMin` fold returns the accumulator or a list element. -/
theorem foldl_pyMin_mem : ∀ (l : List String) (acc : String),
    l.foldl pyMin acc = acc ∨ l.foldl pyMin acc ∈ l
  | [], _ => Or.inl rfl
  | y :: l, acc => by
    rcases foldl_pyMin_mem l (pyMin acc y) with h | h
    · rcases pyMin_eq_or acc y with h2 | h2
      · exact Or.inl (by rw [List.foldl_cons, h, h2])
      · refine Or.inr ?_
        rw [List.foldl_cons, h, h2]
        exact List.mem_cons_self y l
    · exact Or.inr (List.mem_cons_of_mem y (by rw [List.foldl_cons]; exact h))

/-- The `pyMax` fold is an upper bound of the accumulator and the list. -/
theorem foldl_pyMax_ge : ∀ (l : List String) (acc : String),
    pyLe acc (l.foldl pyMax acc) = true ∧
      ∀ x ∈ l, pyLe x (l.foldl pyMax acc) = true
  | [], acc => ⟨pyLe_refl acc, fun x hx => absurd hx (List.not_mem_nil x)⟩
  | y :: l, acc => by
    have ih := foldl_pyMax_ge l (pyMax acc y)
    refine ⟨pyLe_trans (pyMax_ge_left acc y) ih.1, ?_⟩
    intro x hx
    rcases List.mem_cons.mp hx with hxy | hxl
    · subst hxy
      exact pyLe_trans (pyMax_ge_right acc x) ih.1
    · exact ih.2 x hxl

/-- The `pyMax` fold returns the accumulator or a list element. -/
theorem foldl_pyMax_mem : ∀ (l : List String) (acc : String),
    l.foldl pyMax acc = acc ∨ l.foldl pyMax acc ∈ l
  | [], _ => Or.inl rfl
  | y :: l, acc => by
    rcases foldl_pyMax_mem l (pyMax acc y) with h | h
    · rcases pyMax_eq_or acc y with h2 | h2
      · exact Or.inl (by rw [List.foldl_cons, h, h2])
      · refine Or.inr ?_
        rw [List.foldl_cons, h, h2]
        exact List.mem_cons_self y l
    · exact Or.inr (List.mem_cons_of_mem y (by rw [List.foldl_cons]; exact h))

/-- A successful `seriesMin` returns a least element of the series. -/
theorem seriesMin_spec (l : List String) (b : String) (h : seriesMin l = some b) :
    b ∈ l ∧ ∀ x ∈ l, pyLe b x = true := by
  cases l with
  | nil => exact Option.noConfusion h
  | cons x xs =>
    simp only [seriesMin] at h
    injection h with h
    subst h
    constructor
    · rcases foldl_pyMin_mem xs x with h | h
      · rw [h]; exact List.mem_cons_self x xs
      · exact List.mem_cons_of_mem x h
    · intro y hy
      rcases List.mem_cons.mp hy with hyx | hyl
      · subst hyx
        exact (foldl_pyMin_le xs y).1
      · exact (foldl_pyMin_le xs x).2 y hyl

/-- A successful `seriesMax` returns a greatest element of the series. -/
theorem seriesMax_spec (l : List String) (e : String) (h : seriesMax l = some e) :
    e ∈ l ∧ ∀ x ∈ l, pyLe x e = true := by
  cases l with
  | nil => exact Option.noConfusion h
  | cons x xs =>
    simp only [seriesMax] at h
    injection h with h
    subst h
    constructor
    · rcases foldl_pyMax_mem xs x with h | h
      · rw [h]; exact List.mem_cons_self x xs
      · exact List.mem_cons_of_mem x h
    · intro y hy
      rcases List.mem_cons.mp hy with hyx | hyl
      · subst hyx
        exact (foldl_pyMax_ge xs y).1
      · exact (foldl_pyMax_ge xs x).2 y hyl

/-! ### Helper lemmas on the sector-date index -/

/-- An aggregated sector-date row carries its group's sector number. -/
theorem sector_date_row_sector (db : List WcsRow) (s : Nat) (row : SectorDateRow)
    (h : sector_date_row db s = some row) : row.sector = s := by
  unfold sector_date_row at h
  split at h
  all_goals
    first
    | (injection h with h2; subst h2; rfl)
    | exact Option.noConfusion h

/-- Sector groups whose sector is absent contribute no row with that
sector number. -/
theorem filterMap_sector_not_mem (db : List WcsRow) (s : Nat) :
    ∀ l : List Nat, s ∉ l →
      (l.filterMap (sector_date_row db)).filter (fun row => row.sector == s) = []
  | [], _ => rfl
  | a :: l, hs => by
    have ha : a ≠ s := fun hh => hs (hh ▸ List.mem_cons_self a l)
    have hl : s ∉ l := fun hh => hs (List.mem_cons_of_mem a hh)
    cases hrow : sector_date_row db a with
    | none =>
      rw [List.filterMap_cons_none hrow]
      exact filterMap_sector_not_mem db s l hl
    | some row =>
      rw [List.filterMap_cons_some hrow]
      rw [List.filter_cons_of_neg]
      · exact filterMap_sector_not_mem db s l hl
      · have h2 := sector_date_row_sector db a row hrow
        simp [h2, ha]

/-- Over a duplicate-free group list containing `s`, the index holds
exactly one row with sector `s`: the aggregated row of group `s`. -/
theorem filterMap_sector_mem (db : List WcsRow) (s : Nat) (row : SectorDateRow)
    (hrow : sector_date_row db s = some row) :
    ∀ l : List Nat, l.Nodup → s ∈ l →
      (l.filterMap (sector_date_row db)).filter (fun x => x.sector == s) = [row]
  | [], _, hs => absurd hs (List.not_mem_nil s)
  | a :: l, hnd, hs => by
    by_cases ha : a = s
    · subst ha
      rw [List.filterMap_cons_some hrow]
      rw [List.filter_cons_of_pos]
      · have hnl : a ∉ l := (List.nodup_cons.mp hnd).1
        rw [filterMap_sector_not_mem db a l hnl]
      · have h2 := sector_date_row_sector db a row hrow
        simp [h2]
    · have hs' : s ∈ l := by
        rcases List.mem_cons.mp hs with h2 | h2
        · exact absurd h2.symm ha
        · exact h2
      have hnd' : l.Nodup := (List.nodup_cons.mp hnd).2
      cases hrowa : sector_date_row db a with
      | none =>
        rw [List.filterMap_cons_none hrowa]
        exact filterMap_sector_mem db s row hrow l hnd' hs'
      | some rowa =>
        rw [List.filterMap_cons_some hrowa]
        rw [List.filter_cons_of_neg]
        · exact filterMap_sector_mem db s row hrow l hnd' hs'
        · have h2 := sector_date_row_sector db a rowa hrowa
          simp [h2, ha]

/-- The sector group list is duplicate-free. -/
theorem sector_groups_nodup (db : List WcsRow) : (sector_groups db).Nodup := by
  unfold sector_groups
  exact (List.perm_insertionSort _ _).nodup_iff.mpr (List.nodup_dedup _)

/-- Every sector present in the catalog appears among the groups. -/
theorem mem_sector_groups (db : List WcsRow) (s : Nat)
    (h : ∃ r ∈ db, r.sector = s) : s ∈ sector_groups db := by
  unfold sector_groups
  rw [(List.perm_insertionSort _ _).mem_iff, List.mem_dedup]
  obtain ⟨r, hr, hrs⟩ := h
  exact List.mem_map.mpr ⟨r, hr, hrs⟩

/-! ### C9: the sector-date index aggregates min begin and max end -/

/-- C9: for every sector present in the WCS catalog, `get_sector_dates`
returns exactly one row indexed by that sector number; its `begin` is
the minimum `begin` and its `end` the maximum `end` over that sector's
catalog rows (`seriesMin`/`seriesMax` embed the pandas group
aggregations, and the returned values are shown to be a least,
respectively greatest, element of the group). -/
theorem get_sector_dates_spec (db : List WcsRow) (s : Nat)
    (h : ∃ r ∈ db, r.sector = s) :
    ∃ b e,
      seriesMin ((db.filter fun r => r.sector == s).map fun r => r.begin) = some b ∧
      seriesMax ((db.filter fun r => r.sector == s).map fun r => r.«end») = some e ∧
      (b ∈ (db.filter fun r => r.sector == s).map fun r => r.begin) ∧
      (∀ x ∈ (db.filter fun r => r.sector == s).map fun r => r.begin,
        pyLe b x = true) ∧
      (e ∈ (db.filter fun r => r.sector == s).map fun r => r.«end») ∧
      (∀ x ∈ (db.filter fun r => r.sector == s).map fun r => r.«end»,
        pyLe x e = true) ∧
      (get_sector_dates db).filter (fun row => row.sector == s) = [⟨s, b, e⟩] := by
  obtain ⟨r, hr, hrs⟩ := h
  have hrf : r ∈ db.filter (fun r => r.sector == s) :=
    List.mem_filter.mpr ⟨hr, by simp [hrs]⟩
  cases hf : db.filter (fun r => r.sector == s) with
  | nil => rw [hf] at hrf; exact absurd hrf (List.not_mem_nil r)
  | cons r0 rest =>
    have hmin : seriesMin ((r0 :: rest).map fun r => r.begin) =
        some ((rest.map fun r => r.begin).foldl pyMin r0.begin) := rfl
    have hmax : seriesMax ((r0 :: rest).map fun r => r.«end») =
        some ((rest.map fun r => r.«end»).foldl pyMax r0.«end») := rfl
    have hrow : sector_date_row db s =
        some ⟨s, (rest.map fun r => r.begin).foldl pyMin r0.begin,
                 (rest.map fun r => r.«end»).foldl pyMax r0.«end»⟩ := by
      unfold sector_date_row
      rw [hf]
      rfl
    have hminspec := seriesMin_spec _ _ hmin
    have hmaxspec := seriesMax_spec _ _ hmax
    refine ⟨_, _, hmin, hmax, hminspec.1, hminspec.2, hmaxspec.1, hmaxspec.2, ?_⟩
    unfold get_sector_dates
    exact filterMap_sector_mem db s _ hrow (sector_groups db)
      (sector_groups_nodup db) (mem_sector_groups db s ⟨r, hr, hrs⟩)

/-- Witness for C9 on a concrete two-row catalog for sector 1. -/
theorem get_sector_dates_spec_witness :
    ∃ b e,
      seriesMin ((db9.filter fun r => r.sector == 1).map fun r => r.begin) = some b ∧
      seriesMax ((db9.filter fun r => r.sector == 1).map fun r => r.«end») = some e ∧
      (b ∈ (db9.filter fun r => r.sector == 1).map fun r => r.begin) ∧
      (∀ x ∈ (db9.filter fun r => r.sector == 1).map fun r => r.begin,
        pyLe b x = true) ∧
      (e ∈ (db9.filter fun r => r.sector == 1).map fun r => r.«end») ∧
      (∀ x ∈ (db9.filter fun r => r.sector == 1).map fun r => r.«end»,
        pyLe x e = true) ∧
      (get_sector_dates db9).filter (fun row => row.sector == 1) = [⟨1, b, e⟩] :=
  get_sector_dates_spec db9 1 (by decide)

/-! ### C5: input normalization of the lookup -/

/-- C5 counterexample: `time_to_sector` does not truncate a `Time`
input to the index's 19-character second-precision form — it
substitutes the `.iso` rendering verbatim.  astropy's default
rendering carries milliseconds, so for the instant
`2018-08-22 00:00:00` (the inclusive end of sector 1 in the example
index) the normalized string differs from its second-precision
truncation and the lookup misses, while the same instant written in
the index's own form resolves to sector 1. -/
theorem time_to_sector_normalization_counterexample :
    normalize_time (.time exampleAstroTime) ≠
      isoSecond (normalize_time (.time exampleAstroTime)) ∧
    time_to_sector exampleIndex (.time exampleAstroTime) = none ∧
    time_to_sector exampleIndex (.str (isoSecond exampleAstroTime.iso)) = some 1 :=
  ⟨by decide, by decide, by decide⟩

/-- C5 amended: the only normalization performed by `time_to_sector`
is replacing a `Time` object by its `.iso` rendering (a string input
is compared as-is): the `Time` path coincides with the string path on
`t.iso`, with no truncation applied.  The containment comparisons are
between strings of the index's second-precision form exactly when the
rendering is already of that form, that is when
`isoSecond t.iso = t.iso`. -/
theorem time_to_sector_normalization (dates : List SectorDateRow) (t : AstroTime)
    (h : isoSecond t.iso = t.iso) :
    time_to_sector dates (.time t) = time_to_sector dates (.str t.iso) ∧
    normalize_time (.time t) = isoSecond (normalize_time (.time t)) :=
  ⟨rfl, h.symm⟩

/-- Witness for the amended C5 at a second-precision `Time` rendering. -/
theorem time_to_sector_normalization_witness :
    time_to_sector exampleIndex (.time ⟨"2018-08-01 00:00:00"⟩) =
      time_to_sector exampleIndex (.str "2018-08-01 00:00:00") ∧
    normalize_time (.time ⟨"2018-08-01 00:00:00"⟩) =
      isoSecond (normalize_time (.time ⟨"2018-08-01 00:00:00"⟩)) :=
  time_to_sector_normalization exampleIndex ⟨"2018-08-01 00:00:00"⟩ (by decide)

/-! ### C10: where a row's bounds and header come from -/

/-- C10: for every `(sector, camera, ccd)` triple processed by the
build, the assembled row's `begin` equals the `begin` of the first
image and its `end` equals the `end` of the last image of the
triple's listing — which is sorted ascending by filename — while the
WCS header string is downloaded for the single image at index
`floor(count / 2)`. -/
theorem assemble_row_bounds (catalog : List FfiRow) (downloadWcs : TessImage → String)
    (sector camera ccd : Nat) (row : WcsRow)
    (h : assemble_row (list_images catalog) downloadWcs sector camera ccd = some row) :
    List.Pairwise imgLe (list_images catalog sector camera ccd) ∧
    ∃ first last mid,
      (list_images catalog sector camera ccd).head? = some first ∧
      (list_images catalog sector camera ccd).getLast? = some last ∧
      (list_images catalog sector camera ccd).get?
        ((list_images catalog sector camera ccd).length / 2) = some mid ∧
      row.begin = first.begin ∧ row.«end» = last.«end» ∧
      row.wcs = downloadWcs mid := by
  constructor
  · have htrans : IsTrans TessImage imgLe :=
      ⟨fun a b c hab hbc => pyStrLe_trans _ _ _ hab hbc⟩
    have htot : IsTotal TessImage imgLe :=
      ⟨fun a b => by
        have hh := pyStrLe_total a.filename.data b.filename.data
        rw [Bool.or_eq_true] at hh
        exact hh⟩
    exact @List.sorted_insertionSort TessImage imgLe _ htot htrans _
  · unfold assemble_row at h
    cases hmid : (list_images catalog sector camera ccd).get?
        ((list_images catalog sector camera ccd).length / 2) with
    | none => rw [hmid] at h; exact Option.noConfusion h
    | some mid =>
      rw [hmid] at h
      cases hfirst : (list_images catalog sector camera ccd).head? with
      | none => rw [hfirst] at h; exact Option.noConfusion h
      | some first =>
        rw [hfirst] at h
        cases hlast : (list_images catalog sector camera ccd).getLast? with
        | none => rw [hlast] at h; exact Option.noConfusion h
        | some last =>
          rw [hlast] at h
          injection h with h2
          subst h2
          exact ⟨first, last, mid, rfl, rfl, rfl, rfl, rfl, rfl⟩

/-- Witness for C10 on a concrete two-image listing given out of
filename order. -/
theorem assemble_row_bounds_witness :
    ∃ row, assemble_row (list_images cat10) constWcs 1 1 1 = some row ∧
      (List.Pairwise imgLe (list_images cat10 1 1 1) ∧
       ∃ first last mid,
         (list_images cat10 1 1 1).head? = some first ∧
         (list_images cat10 1 1 1).getLast? = some last ∧
         (list_images cat10 1 1 1).get?
           ((list_images cat10 1 1 1).length / 2) = some mid ∧
         row.begin = first.begin ∧ row.«end» = last.«end» ∧
         row.wcs = constWcs mid) := by
  obtain ⟨row, hrow⟩ :
      ∃ row, assemble_row (list_images cat10) constWcs 1 1 1 = some row := ⟨_, rfl⟩
  exact ⟨row, hrow, assemble_row_bounds cat10 constWcs 1 1 1 row hrow⟩

end TessLocator
